import Mathlib

/-!
Shallow embedding of `rust/datafusion/src/execution/physical_plan/limit.rs`:
the LIMIT physical plan (`GlobalLimitExec`, `LocalLimitExec`, `truncate_batch`,
`collect_with_limit`) over a model of Arrow schemas and record batches.

Pure data (schemas, batches) is modelled with lists; machine integers
(`usize` row counts and limits) are modelled as `Nat` — all the arithmetic in
the source stays far below overflow, and the one subtraction (`limit - count`)
is proved to never underflow (claim about the loop invariant), so truncated
`Nat` subtraction coincides with `usize` subtraction on every reachable state.
Fallible Rust code returning `Result` is modelled with `Except Err`.

Collaborators of this file that live outside the given source tree
(the Arrow `limit` compute kernel, `RecordBatch::try_new`, `MergeExec`,
`MemoryIterator`) are modelled from the spec; each such definition carries a
doc comment starting with `Modelled from the spec:`.
-/

set_option autoImplicit false

variable {α : Type}

/-- A schema field: a (name, data type) pair. -/
structure SchemaField where
  name : String
  dataType : String
deriving DecidableEq, Repr

/-- A schema: an ordered sequence of fields. -/
abbrev Schema := List SchemaField

/-- Execution errors (`ExecutionError`); the taxonomy beyond "there is an
error value carrying a message" is outside this core. -/
inductive Err where
  | executionError : String → Err
deriving DecidableEq, Repr

/-- An Arrow `RecordBatch`: a schema plus one column per schema field, each
column a homogeneous sequence of values of some element type `α`. -/
structure RecordBatch (α : Type) where
  schema : Schema
  columns : List (List α)
deriving DecidableEq, Repr

/-- `RecordBatch::num_rows`: the length of the first column (`0` when the
batch has no columns). -/
def RecordBatch.num_rows (b : RecordBatch α) : Nat :=
  (b.columns.headD []).length

/-- `RecordBatch::num_columns`. -/
def RecordBatch.num_columns (b : RecordBatch α) : Nat :=
  b.columns.length

/-- Well-formedness invariant of an Arrow record batch: one column per schema
field, and all columns of equal length (the batch's row count). -/
def RecordBatch.WF (b : RecordBatch α) : Prop :=
  b.columns.length = b.schema.length ∧ ∀ c ∈ b.columns, c.length = b.num_rows

instance (b : RecordBatch α) : Decidable b.WF := by
  unfold RecordBatch.WF
  exact inferInstance

/-- Modelled from the spec: the Arrow `limit` compute kernel (the array-slice
primitive of §6) — a new array holding the first `n` elements of the input,
type-preserving; when `n` is at least the array length this is a full copy,
never an out-of-bounds failure. -/
def limitArray (a : List α) (n : Nat) : Except Err (List α) :=
  .ok (a.take n)

/-- Modelled from the spec: Arrow `RecordBatch::try_new` — constructing a
batch from a schema and columns validates one column per schema field and
equal column lengths. -/
def RecordBatch.try_new (schema : Schema) (columns : List (List α)) :
    Except Err (RecordBatch α) :=
  if columns.length = schema.length ∧ ∀ c ∈ columns, c.length = (columns.headD []).length
  then .ok ⟨schema, columns⟩
  else .error (.executionError "invalid record batch")

/-- `truncate_batch`: truncate a RecordBatch to a maximum of `n` rows by
running the `limit` kernel over every column (`0..num_columns`) and rebuilding
a batch from the unchanged schema plus the limited columns. -/
def truncate_batch (batch : RecordBatch α) (n : Nat) :
    Except Err (RecordBatch α) := do
  let limited ← batch.columns.mapM (fun c => limitArray c n)
  RecordBatch.try_new batch.schema limited

/-- One pull from a `RecordBatchReader`: either a batch or an error. The
stream is modelled as the list of outcomes the reader will yield, end of
stream being the end of the list (`Ok(None)`). -/
inductive Pull (α : Type) where
  | batch : RecordBatch α → Pull α
  | error : Err → Pull α
deriving DecidableEq, Repr

/-- Row contribution of one pull (an error pull carries no rows). -/
def Pull.rows : Pull α → Nat
  | .batch b => b.num_rows
  | .error _ => 0

/-- The loop of `collect_with_limit`, recursing over the reader's pulls with
the running row count and the accumulated batches. -/
def collect_go :
    List (Pull α) → Nat → Nat → List (RecordBatch α) →
    Except Err (List (RecordBatch α))
  | [], _, _, results => .ok results
  | .error e :: _, _, _, _ => .error e
  | .batch batch :: rest, limit, count, results =>
    let capacity := limit - count
    if batch.num_rows ≤ capacity then
      let count := count + batch.num_rows
      let results := results ++ [batch]
      if count = limit then .ok results else collect_go rest limit count results
    else
      match truncate_batch batch capacity with
      | .error e => .error e
      | .ok batch =>
        let count := count + batch.num_rows
        let results := results ++ [batch]
        if count = limit then .ok results else collect_go rest limit count results

/-- `collect_with_limit`: create a vector of record batches from an iterator,
stopping once `limit` rows have been accumulated. -/
def collect_with_limit (stream : List (Pull α)) (limit : Nat) :
    Except Err (List (RecordBatch α)) :=
  collect_go stream limit 0 []

/-- The inline post-merge loop of `GlobalLimitExec::execute` (walk the
collected batches, keep whole batches while they fit, truncate the first one
that does not, stop at the limit). -/
def combine_go :
    List (RecordBatch α) → Nat → Nat → List (RecordBatch α) →
    Except Err (List (RecordBatch α))
  | [], _, _, combined_results => .ok combined_results
  | batch :: rest, limit, count, combined_results =>
    let capacity := limit - count
    if batch.num_rows ≤ capacity then
      let count := count + batch.num_rows
      let combined_results := combined_results ++ [batch]
      if count = limit then .ok combined_results
      else combine_go rest limit count combined_results
    else
      match truncate_batch batch capacity with
      | .error e => .error e
      | .ok batch =>
        let count := count + batch.num_rows
        let combined_results := combined_results ++ [batch]
        if count = limit then .ok combined_results
        else combine_go rest limit count combined_results

/-- `Partitioning` of the physical-plan layer (only the variant the source
uses). -/
inductive Partitioning where
  | unknownPartitioning : Nat → Partitioning
deriving DecidableEq, Repr

/-- `Partitioning::partition_count`. -/
def Partitioning.partition_count : Partitioning → Nat
  | .unknownPartitioning n => n

/-- Modelled from the spec: an input `ExecutionPlan` (the generic operator
capability of §6): a schema and, per partition index, the stream of pulls
`execute(p)` hands out. -/
structure InputPlan (α : Type) where
  schema : Schema
  partitions : List (List (Pull α))
deriving DecidableEq, Repr

/-- Partition count of the input operator. -/
def InputPlan.partition_count (p : InputPlan α) : Nat :=
  p.partitions.length

/-- Modelled from the spec: `execute(i)` of the input operator hands out
partition `i`'s stream. -/
def InputPlan.execute (p : InputPlan α) (i : Nat) : List (Pull α) :=
  p.partitions.getD i []

/-- Modelled from the spec: the input operator's `output_partitioning`
reports its partition count. -/
def InputPlan.output_partitioning (p : InputPlan α) : Partitioning :=
  .unknownPartitioning p.partition_count

/-- Total rows available from the input across all partitions. -/
def InputPlan.total_rows (p : InputPlan α) : Nat :=
  (p.partitions.map (fun part => (part.map Pull.rows).sum)).sum

/-- `LocalLimitExec`: applies a limit to a single partition. -/
structure LocalLimitExec (α : Type) where
  input : InputPlan α
  schema : Schema
  limit : Nat
deriving DecidableEq, Repr

/-- `LocalLimitExec::schema` — returns the input's schema. -/
def LocalLimitExec.schemaImpl (l : LocalLimitExec α) : Schema :=
  l.input.schema

/-- `LocalLimitExec::output_partitioning` — passes the input's partitioning
through. -/
def LocalLimitExec.output_partitioning (l : LocalLimitExec α) : Partitioning :=
  l.input.output_partitioning

/-- `LocalLimitExec::execute`: pull partition `i` from the input and run
`collect_with_limit` on it; the resulting batch list is republished as a fresh
in-memory iterator (the `MemoryIterator` wrap is modelled from the spec as
the batch list itself, which the iterator replays in order). -/
def LocalLimitExec.execute (l : LocalLimitExec α) (i : Nat) :
    Except Err (List (RecordBatch α)) :=
  collect_with_limit (l.input.execute i) l.limit

/-- Modelled from the spec: `MergeExec` — always exposes exactly one output
partition. -/
def mergeOutputPartitioning : Partitioning :=
  .unknownPartitioning 1

/-- Modelled from the spec: executing `MergeExec`'s single partition over the
locally-limited plan drains every input partition and replays all their
batches under the merge's own interleaving policy; the model fixes that
policy to partition order. An error from any partition propagates. -/
def mergeExecute (l : LocalLimitExec α) : Except Err (List (RecordBatch α)) := do
  let parts ← (List.range (l.input.partition_count)).mapM (fun i => l.execute i)
  .ok parts.flatten

/-- `GlobalLimitExec`: the top-level limit plan; fields as in the source
(`schema`, `input`, `limit`, `concurrency`). -/
structure GlobalLimitExec (α : Type) where
  schema : Schema
  input : InputPlan α
  limit : Nat
  concurrency : Nat
deriving DecidableEq, Repr

/-- `GlobalLimitExec::new`. -/
def GlobalLimitExec.new (schema : Schema) (input : InputPlan α)
    (limit : Nat) (concurrency : Nat) : GlobalLimitExec α :=
  { schema := schema, input := input, limit := limit, concurrency := concurrency }

/-- `GlobalLimitExec::schema` — returns (a clone of) the operator's stored
`schema` field. -/
def GlobalLimitExec.schemaImpl (g : GlobalLimitExec α) : Schema :=
  g.schema

/-- `GlobalLimitExec::output_partitioning` — always a single partition. -/
def GlobalLimitExec.output_partitioning (_g : GlobalLimitExec α) : Partitioning :=
  .unknownPartitioning 1

/-- Outcome of `GlobalLimitExec::execute`: a Rust panic (failed `assert_eq!`,
fatal and non-recoverable), a recoverable `Err`, or the returned
`RecordBatchIterator` (modelled from the spec as its schema and ordered batch
list, replayed in order). -/
inductive ExecOutcome (α : Type) where
  | panic : ExecOutcome α
  | error : Err → ExecOutcome α
  | ok : Schema → List (RecordBatch α) → ExecOutcome α
deriving DecidableEq, Repr

/-- `GlobalLimitExec::execute`: assert the partition index is 0, build a
`LocalLimitExec` over the input with the same limit, merge all its partitions
into one (asserting the merge reports one partition), eagerly collect the
merged batches, run the combining loop to enforce the exact limit, and
republish the result with the operator's schema. -/
def GlobalLimitExec.execute (g : GlobalLimitExec α) (partition : Nat) :
    ExecOutcome α :=
  if 0 ≠ partition then .panic
  else
    let local_limit : LocalLimitExec α :=
      { input := g.input, schema := g.schema, limit := g.limit }
    if mergeOutputPartitioning.partition_count ≠ 1 then .panic
    else
      match mergeExecute local_limit with
      | .error e => .error e
      | .ok batches =>
        match combine_go batches g.limit 0 [] with
        | .error e => .error e
        | .ok combined_results => .ok g.schema combined_results

/-- Total row count of a batch list. -/
def totalRows (bs : List (RecordBatch α)) : Nat :=
  (bs.map RecordBatch.num_rows).sum

/-- Row `i` of a batch: the `i`-th entry of every column in column order
(`d` is a default used only out of bounds). -/
def RecordBatch.rowAt (b : RecordBatch α) (d : α) (i : Nat) : List α :=
  b.columns.map (fun c => c.getD i d)

/-- The rows of a batch, in order. -/
def RecordBatch.rowsList (b : RecordBatch α) (d : α) : List (List α) :=
  (List.range b.num_rows).map (fun i => b.rowAt d i)

/-- The concatenated rows of a batch list, in order. -/
def batchesRows (bs : List (RecordBatch α)) (d : α) : List (List α) :=
  (bs.map (fun b => b.rowsList d)).flatten

/-- Whether an execute outcome returned data. -/
def ExecOutcome.isOk : ExecOutcome α → Bool
  | .ok _ _ => true
  | _ => false

/-- Number of `next_batch` calls `collect_with_limit`'s loop performs, by the
same branch structure as `collect_go`: every loop iteration that matches a
pull (batch or error) counts as one call. -/
def collect_pulls : List (Pull α) → Nat → Nat → Nat
  | [], _, _ => 0
  | .error _ :: _, _, _ => 1
  | .batch batch :: rest, limit, count =>
    let capacity := limit - count
    if batch.num_rows ≤ capacity then
      let count := count + batch.num_rows
      if count = limit then 1 else 1 + collect_pulls rest limit count
    else
      match truncate_batch batch capacity with
      | .error _ => 1
      | .ok batch =>
        let count := count + batch.num_rows
        if count = limit then 1 else 1 + collect_pulls rest limit count

/-- The number of pulls needed to accumulate `cap` rows from the stream: the
length of the shortest prefix carrying at least `cap` rows, or the whole
stream length when it carries fewer. -/
def pulls_needed : List (Pull α) → Nat → Nat
  | [], _ => 0
  | p :: rest, cap => if cap = 0 then 0 else 1 + pulls_needed rest (cap - p.rows)

/-- The running-count values at which `collect_with_limit`'s loop computes
`capacity = limit - count` (one entry per processed batch), by the same
branch structure as `collect_go`. -/
def collect_counts : List (Pull α) → Nat → Nat → List Nat
  | [], _, _ => []
  | .error _ :: _, _, _ => []
  | .batch batch :: rest, limit, count =>
    count ::
      (let capacity := limit - count
       if batch.num_rows ≤ capacity then
         let count := count + batch.num_rows
         if count = limit then [] else collect_counts rest limit count
       else
         match truncate_batch batch capacity with
         | .error _ => []
         | .ok batch =>
           let count := count + batch.num_rows
           if count = limit then [] else collect_counts rest limit count)

/-- The running-count values at which the post-merge loop of
`GlobalLimitExec::execute` computes `capacity = limit - count`, by the same
branch structure as `combine_go`. -/
def combine_counts : List (RecordBatch α) → Nat → Nat → List Nat
  | [], _, _ => []
  | batch :: rest, limit, count =>
    count ::
      (let capacity := limit - count
       if batch.num_rows ≤ capacity then
         let count := count + batch.num_rows
         if count = limit then [] else combine_counts rest limit count
       else
         match truncate_batch batch capacity with
         | .error _ => []
         | .ok batch =>
           let count := count + batch.num_rows
           if count = limit then [] else combine_counts rest limit count)

/-- The shape shared by every batch list the limiting loops emit when started
at running count `c`: each batch fits the remaining capacity, and a batch
that fills the limit exactly is the last one. Feeding such a list back
through either loop reproduces it unchanged. -/
def GoodChain (limit : Nat) : Nat → List (RecordBatch α) → Prop
  | _, [] => True
  | c, b :: bs =>
    b.num_rows ≤ limit - c ∧
      (if c + b.num_rows = limit then bs = []
       else GoodChain limit (c + b.num_rows) bs)

/-- Re-expose the global limiter's output (a single-partition in-memory
iterator over `out` with the limiter's schema) as an input operator, and wrap
a new global limiter with the same schema, limit and concurrency around it. -/
def rewrap (g : GlobalLimitExec α) (out : List (RecordBatch α)) :
    GlobalLimitExec α :=
  GlobalLimitExec.new g.schema ⟨g.schema, [out.map Pull.batch]⟩ g.limit g.concurrency

/-- Concrete two-column, three-row batch used in witnesses. -/
def exampleBatch : RecordBatch Nat :=
  ⟨[⟨"a", "Int64"⟩, ⟨"b", "Int64"⟩], [[1, 2, 3], [4, 5, 6]]⟩

/-- Concrete two-column, two-row batch used in witnesses. -/
def exampleBatch2 : RecordBatch Nat :=
  ⟨[⟨"a", "Int64"⟩, ⟨"b", "Int64"⟩], [[7, 8], [9, 10]]⟩

/-- Concrete one-column, one-row batch used in counterexamples. -/
def exampleTinyBatch : RecordBatch Nat :=
  ⟨[⟨"x", "Int64"⟩], [[42]]⟩

/-- Concrete two-partition input used in witnesses. -/
def exampleInput : InputPlan Nat :=
  ⟨[⟨"a", "Int64"⟩, ⟨"b", "Int64"⟩],
   [[Pull.batch exampleBatch], [Pull.batch exampleBatch2]]⟩

/-- Concrete global limiter over `exampleInput`, limit 4. -/
def exampleGlobal : GlobalLimitExec Nat :=
  GlobalLimitExec.new [⟨"a", "Int64"⟩, ⟨"b", "Int64"⟩] exampleInput 4 2

/-- Global limiter whose constructed schema differs from its input's schema. -/
def mismatchGlobal : GlobalLimitExec Nat :=
  GlobalLimitExec.new [⟨"z", "Utf8"⟩] exampleInput 4 2

/-- The schema of the example batches. -/
def exampleSchema : Schema :=
  [⟨"a", "Int64"⟩, ⟨"b", "Int64"⟩]

/-- The example input's partitions, as plain batch lists. -/
def exampleParts : List (List (RecordBatch Nat)) :=
  [[exampleBatch], [exampleBatch2]]

/-- `exampleBatch2` truncated to one row. -/
def exampleTruncated : RecordBatch Nat :=
  ⟨[⟨"a", "Int64"⟩, ⟨"b", "Int64"⟩], [[7], [9]]⟩

/-- A one-batch stream used in witnesses. -/
def exampleStream : List (Pull Nat) :=
  [Pull.batch exampleBatch]

/-- An upstream error used in witnesses. -/
def exampleErr : Err :=
  .executionError "boom"

/-! ### Helper lemmas: the array kernel and batch truncation -/

theorem mapM_limitArray (cols : List (List α)) (n : Nat) :
    cols.mapM (fun c => limitArray c n) = .ok (cols.map (fun c => c.take n)) := by
  induction cols with
  | nil => rfl
  | cons c cs ih =>
    rw [List.mapM_cons, ih]
    rfl

theorem headD_map_take (cols : List (List α)) (n : Nat) :
    (cols.map (fun c => c.take n)).headD [] = (cols.headD []).take n := by
  cases cols <;> simp

/-- `truncate_batch` is `try_new` on the taken columns. -/
theorem truncate_batch_eq (b : RecordBatch α) (n : Nat) :
    truncate_batch b n
      = RecordBatch.try_new b.schema (b.columns.map (fun c => c.take n)) := by
  unfold truncate_batch
  rw [mapM_limitArray]
  rfl

/-- Truncating a well-formed batch succeeds and takes the `n`-prefix of every
column. -/
theorem truncate_batch_of_wf (b : RecordBatch α) (n : Nat) (hwf : b.WF) :
    truncate_batch b n = .ok ⟨b.schema, b.columns.map (fun c => c.take n)⟩ := by
  obtain ⟨hlen, hcols⟩ := hwf
  rw [truncate_batch_eq]
  unfold RecordBatch.try_new
  rw [if_pos]
  refine ⟨by simpa using hlen, ?_⟩
  intro c hc
  simp only [List.mem_map] at hc
  obtain ⟨c0, hc0, rfl⟩ := hc
  rw [headD_map_take]
  have h0 : c0.length = b.num_rows := hcols c0 hc0
  simp [List.length_take, h0, RecordBatch.num_rows]

/-- The explicit truncation of a well-formed batch is well-formed. -/
theorem truncate_batch_wf_preserved (b : RecordBatch α) (n : Nat) (hwf : b.WF) :
    (⟨b.schema, b.columns.map (fun c => c.take n)⟩ : RecordBatch α).WF := by
  obtain ⟨hlen, hcols⟩ := hwf
  constructor
  · simpa using hlen
  · intro c hc
    simp only [List.mem_map] at hc
    obtain ⟨c0, hc0, rfl⟩ := hc
    have h0 : c0.length = b.num_rows := hcols c0 hc0
    show _ = (⟨b.schema, b.columns.map (fun c => c.take n)⟩ : RecordBatch α).num_rows
    unfold RecordBatch.num_rows
    simp only [headD_map_take]
    simp [List.length_take, h0, RecordBatch.num_rows]

/-- Row count of any successful truncation, without a well-formedness
assumption. -/
theorem truncate_batch_num_rows (b b' : RecordBatch α) (n : Nat)
    (h : truncate_batch b n = .ok b') : b'.num_rows = min n b.num_rows := by
  rw [truncate_batch_eq] at h
  unfold RecordBatch.try_new at h
  split at h
  · cases h
    unfold RecordBatch.num_rows
    simp only [headD_map_take]
    simp [List.length_take, RecordBatch.num_rows]
  · cases h

/-! ### Helper lemmas: the collecting loops -/

theorem totalRows_nil : totalRows ([] : List (RecordBatch α)) = 0 := rfl

theorem totalRows_cons (b : RecordBatch α) (bs : List (RecordBatch α)) :
    totalRows (b :: bs) = b.num_rows + totalRows bs := by
  simp [totalRows]

theorem totalRows_append (bs cs : List (RecordBatch α)) :
    totalRows (bs ++ cs) = totalRows bs + totalRows cs := by
  simp [totalRows]

/-- The post-merge loop of `GlobalLimitExec::execute` computes the same
function as `collect_with_limit`'s loop run on the already-pulled batches. -/
theorem combine_go_eq_collect_go (limit : Nat) (bs : List (RecordBatch α)) :
    ∀ (count : Nat) (acc : List (RecordBatch α)),
      combine_go bs limit count acc = collect_go (bs.map Pull.batch) limit count acc := by
  induction bs with
  | nil => intro count acc; rfl
  | cons b bs ih =>
    intro count acc
    simp only [combine_go, List.map_cons, collect_go]
    by_cases hfit : b.num_rows ≤ limit - count
    · rw [if_pos hfit, if_pos hfit]
      by_cases hful : count + b.num_rows = limit
      · rw [if_pos hful, if_pos hful]
      · rw [if_neg hful, if_neg hful, ih]
    · rw [if_neg hfit, if_neg hfit]
      cases htr : truncate_batch b (limit - count) with
      | error e => rfl
      | ok b2 =>
        dsimp only
        by_cases hful : count + b2.num_rows = limit
        · rw [if_pos hful, if_pos hful]
        · rw [if_neg hful, if_neg hful, ih]

/-- Master lemma for the collecting loop on a pure, well-formed stream: it
succeeds, extends the accumulator, keeps exactly `min (limit - count)` of the
available rows, and emits only well-formed batches. -/
theorem collect_go_count (limit : Nat) (bs : List (RecordBatch α)) :
    ∀ (count : Nat) (acc : List (RecordBatch α)),
      (∀ b ∈ bs, b.WF) → count ≤ limit →
      ∃ res, collect_go (bs.map Pull.batch) limit count acc = .ok (acc ++ res) ∧
        totalRows res = min (limit - count) (totalRows bs) ∧
        (∀ b ∈ res, b.WF) := by
  induction bs with
  | nil =>
    intro count acc _ _
    exact ⟨[], by simp [collect_go], by simp [totalRows], by simp⟩
  | cons b bs ih =>
    intro count acc hwf hle
    have hbwf : b.WF := hwf b (by simp)
    have hwfrest : ∀ b ∈ bs, b.WF := fun x hx => hwf x (by simp [hx])
    simp only [List.map_cons, collect_go]
    by_cases hfit : b.num_rows ≤ limit - count
    · rw [if_pos hfit]
      by_cases hful : count + b.num_rows = limit
      · rw [if_pos hful]
        refine ⟨[b], by simp, ?_, ?_⟩
        · rw [totalRows_cons, totalRows_cons, totalRows_nil]
          omega
        · intro x hx
          simp at hx
          subst hx
          exact hbwf
      · rw [if_neg hful]
        obtain ⟨res, heq, htot, hreswf⟩ :=
          ih (count + b.num_rows) (acc ++ [b]) hwfrest (by omega)
        refine ⟨b :: res, by simpa using heq, ?_, ?_⟩
        · rw [totalRows_cons, totalRows_cons, htot]
          omega
        · intro x hx
          rcases List.mem_cons.mp hx with h | h
          · subst h; exact hbwf
          · exact hreswf x h
    · rw [if_neg hfit]
      rw [truncate_batch_of_wf b (limit - count) hbwf]
      set b2 : RecordBatch α :=
        ⟨b.schema, b.columns.map (fun c => c.take (limit - count))⟩ with hb2
      have hb2rows : b2.num_rows = limit - count := by
        have := truncate_batch_num_rows b b2 (limit - count)
          (truncate_batch_of_wf b (limit - count) hbwf)
        omega
      have hful : count + b2.num_rows = limit := by omega
      simp only [hful, if_pos rfl]
      refine ⟨[b2], by simp, ?_, ?_⟩
      · rw [totalRows_cons, totalRows_cons, totalRows_nil]
        omega
      · intro x hx
        simp at hx
        subst hx
        exact truncate_batch_wf_preserved b (limit - count) hbwf

/-! ### Helper lemmas: merging the locally-limited partitions -/

theorem mapM_map_nat {β : Type} (g : Nat → Nat) (f : Nat → Except Err β)
    (l : List Nat) : (l.map g).mapM f = l.mapM (fun i => f (g i)) := by
  induction l with
  | nil => rfl
  | cons x xs ih => rw [List.map_cons, List.mapM_cons, List.mapM_cons, ih]

theorem range_mapM_getD {β : Type} (f : List (Pull α) → Except Err β)
    (parts : List (List (Pull α))) :
    (List.range parts.length).mapM (fun i => f (parts.getD i []))
      = parts.mapM f := by
  induction parts with
  | nil => rfl
  | cons p ps ih =>
    rw [List.length_cons, List.range_succ_eq_map, List.mapM_cons, mapM_map_nat]
    simp only [List.getD_cons_zero, Nat.succ_eq_add_one, List.getD_cons_succ]
    rw [ih, List.mapM_cons]

theorem mapM_collect_parts (limit : Nat) (parts : List (List (RecordBatch α)))
    (hwf : ∀ p ∈ parts, ∀ b ∈ p, b.WF) :
    ∃ ress : List (List (RecordBatch α)),
      (parts.map (fun p => p.map Pull.batch)).mapM
          (fun st => collect_with_limit st limit) = .ok ress ∧
        totalRows ress.flatten
          = (parts.map (fun p => min limit (totalRows p))).sum ∧
        ∀ b ∈ ress.flatten, b.WF := by
  induction parts with
  | nil => exact ⟨[], rfl, by simp [totalRows], by simp⟩
  | cons p ps ih =>
    obtain ⟨ress, heq, htot, hwfr⟩ := ih (fun q hq => hwf q (by simp [hq]))
    obtain ⟨res, heqp, htotp, hwfp⟩ :=
      collect_go_count limit p 0 [] (hwf p (by simp)) (Nat.zero_le _)
    refine ⟨res :: ress, ?_, ?_, ?_⟩
    · rw [List.map_cons, List.mapM_cons]
      have hcp : collect_with_limit (p.map Pull.batch) limit = .ok res := by
        unfold collect_with_limit
        simpa using heqp
      rw [hcp, heq]
      rfl
    · rw [List.flatten_cons, totalRows_append, htot, htotp, List.map_cons,
        List.sum_cons, Nat.sub_zero]
    · intro b hb
      rw [List.flatten_cons, List.mem_append] at hb
      rcases hb with h | h
      · exact hwfp b h
      · exact hwfr b h

theorem mergeExecute_parts (limit : Nat) (s s2 : Schema)
    (parts : List (List (RecordBatch α)))
    (hwf : ∀ p ∈ parts, ∀ b ∈ p, b.WF) :
    ∃ merged,
      mergeExecute ⟨⟨s, parts.map (fun p => p.map Pull.batch)⟩, s2, limit⟩
          = .ok merged ∧
        totalRows merged = (parts.map (fun p => min limit (totalRows p))).sum ∧
        ∀ b ∈ merged, b.WF := by
  obtain ⟨ress, heq, htot, hwfr⟩ := mapM_collect_parts limit parts hwf
  refine ⟨ress.flatten, ?_, htot, hwfr⟩
  unfold mergeExecute
  simp only [LocalLimitExec.execute, InputPlan.execute, InputPlan.partition_count,
    List.length_map]
  have hlen : (parts.map (fun p => p.map Pull.batch)).length = parts.length := by
    simp
  rw [← hlen, range_mapM_getD (fun st => collect_with_limit st limit)
    (parts.map (fun p => p.map Pull.batch))]
  rw [heq]
  rfl

theorem min_sum_min (L : Nat) (ts : List Nat) :
    min L ((ts.map (fun t => min L t)).sum) = min L ts.sum := by
  induction ts with
  | nil => rfl
  | cons t ts ih =>
    rw [List.map_cons, List.sum_cons, List.sum_cons]
    omega

/-! ### Helper lemmas: the global limiter pipeline -/

theorem execute_zero_eq (g : GlobalLimitExec α) :
    g.execute 0
      = match mergeExecute ⟨g.input, g.schema, g.limit⟩ with
        | .error e => .error e
        | .ok batches =>
          match combine_go batches g.limit 0 [] with
          | .error e => .error e
          | .ok combined_results => .ok g.schema combined_results := by
  unfold GlobalLimitExec.execute
  rw [if_neg (by simp), if_neg (by simp [mergeOutputPartitioning,
    Partitioning.partition_count])]

theorem total_rows_parts (s : Schema) (parts : List (List (RecordBatch α))) :
    (InputPlan.mk s (parts.map (fun p => p.map Pull.batch))).total_rows
      = (parts.map totalRows).sum := by
  unfold InputPlan.total_rows totalRows
  simp [Function.comp_def, Pull.rows]

theorem global_execute_parts (s : Schema) (parts : List (List (RecordBatch α)))
    (L c : Nat) (hwf : ∀ p ∈ parts, ∀ b ∈ p, b.WF) :
    ∃ out,
      (GlobalLimitExec.new s ⟨s, parts.map (fun p => p.map Pull.batch)⟩ L c).execute 0
          = .ok s out ∧
        totalRows out = min L ((parts.map totalRows).sum) ∧
        ∀ b ∈ out, b.WF := by
  obtain ⟨merged, hmerge, hmtot, hmwf⟩ := mergeExecute_parts L s s parts hwf
  obtain ⟨out, hcomb, htot, howf⟩ :=
    collect_go_count L merged 0 [] hmwf (Nat.zero_le _)
  refine ⟨out, ?_, ?_, howf⟩
  · rw [execute_zero_eq]
    show (match mergeExecute ⟨⟨s, parts.map (fun p => p.map Pull.batch)⟩, s, L⟩ with
      | Except.error e => ExecOutcome.error e
      | Except.ok batches =>
        match combine_go batches L 0 [] with
        | Except.error e => ExecOutcome.error e
        | Except.ok combined_results => ExecOutcome.ok s combined_results) = _
    rw [hmerge]
    dsimp only
    rw [combine_go_eq_collect_go, hcomb]
    simp
  · rw [htot, hmtot, Nat.sub_zero]
    have : parts.map (fun p => min L (totalRows p))
        = (parts.map totalRows).map (fun t => min L t) := by
      simp [List.map_map, Function.comp_def]
    rw [this, min_sum_min]

/-! ### Helper lemmas: rows of batches -/

theorem rowsList_length (b : RecordBatch α) (d : α) :
    (b.rowsList d).length = b.num_rows := by
  simp [RecordBatch.rowsList]

theorem batchesRows_nil (d : α) :
    batchesRows ([] : List (RecordBatch α)) d = [] := rfl

theorem batchesRows_cons (b : RecordBatch α) (bs : List (RecordBatch α)) (d : α) :
    batchesRows (b :: bs) d = b.rowsList d ++ batchesRows bs d := by
  simp [batchesRows]

theorem getD_take_eq (c : List α) (n i : Nat) (d : α) (hi : i < n)
    (hic : i < c.length) : (c.take n).getD i d = c.getD i d := by
  have h1 : i < (c.take n).length := by
    rw [List.length_take]
    omega
  rw [List.getD_eq_getElem _ _ h1, List.getD_eq_getElem _ _ hic]
  exact List.getElem_take c

theorem truncated_num_rows (b : RecordBatch α) (n : Nat) :
    (⟨b.schema, b.columns.map (fun c => c.take n)⟩ : RecordBatch α).num_rows
      = min n b.num_rows := by
  unfold RecordBatch.num_rows
  show ((b.columns.map (fun c => c.take n)).headD []).length = _
  rw [headD_map_take, List.length_take]

theorem rowAt_take (b : RecordBatch α) (n i : Nat) (d : α) (hwf : b.WF)
    (hin : i < n) (hir : i < b.num_rows) :
    (⟨b.schema, b.columns.map (fun c => c.take n)⟩ : RecordBatch α).rowAt d i
      = b.rowAt d i := by
  unfold RecordBatch.rowAt
  show (b.columns.map (fun c => c.take n)).map (fun c => c.getD i d) = _
  rw [List.map_map]
  apply List.map_congr_left
  intro c hc
  have hcl : c.length = b.num_rows := hwf.2 c hc
  exact getD_take_eq c n i d hin (by omega)

/-- The rows of the truncated batch are the `n`-prefix of the rows of the
original batch. -/
theorem rowsList_take (b : RecordBatch α) (n : Nat) (d : α) (hwf : b.WF) :
    (⟨b.schema, b.columns.map (fun c => c.take n)⟩ : RecordBatch α).rowsList d
      = (b.rowsList d).take n := by
  unfold RecordBatch.rowsList
  rw [truncated_num_rows, ← List.map_take, List.take_range]
  apply List.map_congr_left
  intro i hi
  have hilt : i < min n b.num_rows := List.mem_range.mp hi
  exact rowAt_take b n i d hwf (by omega) (by omega)

/-- Master lemma for the collecting loop on a pure, well-formed stream at the
row level: the concatenated rows of the result are exactly the first
`limit - count` rows of the stream, in order. -/
theorem collect_go_rows (limit : Nat) (d : α) (bs : List (RecordBatch α)) :
    ∀ (count : Nat) (acc : List (RecordBatch α)),
      (∀ b ∈ bs, b.WF) → count ≤ limit →
      ∃ res, collect_go (bs.map Pull.batch) limit count acc = .ok (acc ++ res) ∧
        batchesRows res d = (batchesRows bs d).take (limit - count) := by
  induction bs with
  | nil =>
    intro count acc _ _
    exact ⟨[], by simp [collect_go], by simp [batchesRows]⟩
  | cons b bs ih =>
    intro count acc hwf hle
    have hbwf : b.WF := hwf b (by simp)
    have hwfrest : ∀ x ∈ bs, x.WF := fun x hx => hwf x (by simp [hx])
    have hlen : (b.rowsList d).length = b.num_rows := rowsList_length b d
    simp only [List.map_cons, collect_go]
    by_cases hfit : b.num_rows ≤ limit - count
    · rw [if_pos hfit]
      by_cases hful : count + b.num_rows = limit
      · rw [if_pos hful]
        refine ⟨[b], by simp, ?_⟩
        rw [batchesRows_cons, batchesRows_nil, List.append_nil, batchesRows_cons,
          List.take_append_eq_append_take, List.take_of_length_le (by omega)]
        have h0 : limit - count - (b.rowsList d).length = 0 := by omega
        rw [h0, List.take_zero, List.append_nil]
      · rw [if_neg hful]
        obtain ⟨res, heq, hrows⟩ :=
          ih (count + b.num_rows) (acc ++ [b]) hwfrest (by omega)
        refine ⟨b :: res, by simpa using heq, ?_⟩
        rw [batchesRows_cons, batchesRows_cons,
          List.take_append_eq_append_take, List.take_of_length_le (by omega)]
        have harg : limit - count - (b.rowsList d).length
            = limit - (count + b.num_rows) := by omega
        rw [harg, hrows]
    · rw [if_neg hfit]
      rw [truncate_batch_of_wf b (limit - count) hbwf]
      set b2 : RecordBatch α :=
        ⟨b.schema, b.columns.map (fun c => c.take (limit - count))⟩ with hb2
      have hb2rows : b2.num_rows = limit - count := by
        have := truncated_num_rows b (limit - count)
        rw [← hb2] at this
        omega
      have hful : count + b2.num_rows = limit := by omega
      simp only [hful, if_pos rfl]
      refine ⟨[b2], by simp, ?_⟩
      rw [batchesRows_cons, batchesRows_nil, List.append_nil, batchesRows_cons,
        List.take_append_eq_append_take]
      have h0 : limit - count - (b.rowsList d).length = 0 := by omega
      rw [h0, List.take_zero, List.append_nil, hb2,
        rowsList_take b (limit - count) d hbwf]

/-! ### Helper lemmas: pull counting, error propagation, count invariant -/

theorem collect_pulls_le (limit : Nat) (stream : List (Pull α)) :
    ∀ count : Nat, count < limit →
      collect_pulls stream limit count ≤ pulls_needed stream (limit - count) := by
  induction stream with
  | nil => intro count _; exact Nat.le_refl 0
  | cons p rest ih =>
    intro count hlt
    cases p with
    | error e =>
      show 1 ≤ _
      unfold pulls_needed
      rw [if_neg (by omega)]
      omega
    | batch b =>
      unfold collect_pulls pulls_needed
      have hcap : ¬(limit - count = 0) := by omega
      rw [if_neg hcap]
      by_cases hfit : b.num_rows ≤ limit - count
      · rw [if_pos hfit]
        by_cases hful : count + b.num_rows = limit
        · rw [if_pos hful]
          omega
        · rw [if_neg hful]
          have := ih (count + b.num_rows) (by omega)
          have harg : limit - (count + b.num_rows)
              = limit - count - (Pull.batch b).rows := by
            simp [Pull.rows]
            omega
          rw [harg] at this
          omega
      · rw [if_neg hfit]
        cases htr : truncate_batch b (limit - count) with
        | error e2 => dsimp only; omega
        | ok b2 =>
          dsimp only
          have hr2 := truncate_batch_num_rows b b2 _ htr
          have hful : count + b2.num_rows = limit := by omega
          rw [if_pos hful]
          omega

theorem collect_pulls_zero_cap (stream : List (Pull α)) :
    collect_pulls stream 0 0 = min 1 stream.length := by
  cases stream with
  | nil => rfl
  | cons p rest =>
    have hmin : min 1 (p :: rest).length = 1 := by
      simp only [List.length_cons]
      omega
    rw [hmin]
    cases p with
    | error e => rfl
    | batch b =>
      unfold collect_pulls
      by_cases h : b.num_rows ≤ 0 - 0
      · rw [if_pos h]
        have h0 : b.num_rows = 0 := by omega
        rw [if_pos (by omega)]
      · rw [if_neg h]
        cases htr : truncate_batch b (0 - 0) with
        | error e2 => rfl
        | ok b2 =>
          dsimp only
          have hr2 := truncate_batch_num_rows b b2 _ htr
          rw [if_pos (by omega)]

/-- If every nonempty prefix of the leading batches carries strictly fewer
rows than the remaining capacity allows, the loop reaches and propagates the
error. -/
theorem collect_go_error (e : Err) (rest : List (Pull α)) (limit : Nat)
    (bs : List (RecordBatch α)) :
    ∀ (count : Nat) (acc : List (RecordBatch α)),
      (∀ k, 1 ≤ k → k ≤ bs.length → count + totalRows (bs.take k) < limit) →
      collect_go (bs.map Pull.batch ++ Pull.error e :: rest) limit count acc
        = .error e := by
  induction bs with
  | nil => intro count acc _; rfl
  | cons b bs ih =>
    intro count acc hcum
    have h1 : count + b.num_rows < limit := by
      have := hcum 1 (by omega) (by simp)
      rw [List.take_succ_cons, List.take_zero, totalRows_cons, totalRows_nil] at this
      omega
    simp only [List.map_cons, List.cons_append, collect_go]
    rw [if_pos (by omega), if_neg (by omega)]
    apply ih
    intro k h1k hk
    have := hcum (k + 1) (by omega) (by simpa using hk)
    rw [List.take_succ_cons, totalRows_cons] at this
    omega

theorem collect_counts_le (limit : Nat) (stream : List (Pull α)) :
    ∀ count : Nat, count ≤ limit →
      ∀ x ∈ collect_counts stream limit count, x ≤ limit := by
  induction stream with
  | nil => intro count _ x hx; simp [collect_counts] at hx
  | cons p rest ih =>
    intro count hle x hx
    cases p with
    | error e => simp [collect_counts] at hx
    | batch b =>
      unfold collect_counts at hx
      rw [List.mem_cons] at hx
      rcases hx with rfl | hx
      · exact hle
      · by_cases hfit : b.num_rows ≤ limit - count
        · rw [if_pos hfit] at hx
          by_cases hful : count + b.num_rows = limit
          · rw [if_pos hful] at hx
            simp at hx
          · rw [if_neg hful] at hx
            exact ih (count + b.num_rows) (by omega) x hx
        · rw [if_neg hfit] at hx
          cases htr : truncate_batch b (limit - count) with
          | error e2 =>
            rw [htr] at hx
            simp at hx
          | ok b2 =>
            rw [htr] at hx
            dsimp only at hx
            have hr2 := truncate_batch_num_rows b b2 _ htr
            by_cases hful : count + b2.num_rows = limit
            · rw [if_pos hful] at hx
              simp at hx
            · rw [if_neg hful] at hx
              exact ih (count + b2.num_rows) (by omega) x hx

theorem combine_counts_eq (limit : Nat) (bs : List (RecordBatch α)) :
    ∀ count : Nat,
      combine_counts bs limit count
        = collect_counts (bs.map Pull.batch) limit count := by
  induction bs with
  | nil => intro count; rfl
  | cons b bs ih =>
    intro count
    simp only [combine_counts, List.map_cons, collect_counts]
    congr 1
    by_cases hfit : b.num_rows ≤ limit - count
    · rw [if_pos hfit, if_pos hfit]
      by_cases hful : count + b.num_rows = limit
      · rw [if_pos hful, if_pos hful]
      · rw [if_neg hful, if_neg hful, ih]
    · rw [if_neg hfit, if_neg hfit]
      cases htr : truncate_batch b (limit - count) with
      | error e => rfl
      | ok b2 =>
        dsimp only
        by_cases hful : count + b2.num_rows = limit
        · rw [if_pos hful, if_pos hful]
        · rw [if_neg hful, if_neg hful, ih]

/-! ### Helper lemmas: the shape of emitted batch lists (idempotence) -/

theorem combine_go_goodChain (limit : Nat) (bs : List (RecordBatch α)) :
    ∀ (count : Nat) (acc out : List (RecordBatch α)),
      count ≤ limit →
      combine_go bs limit count acc = .ok out →
      ∃ tail, out = acc ++ tail ∧ GoodChain limit count tail := by
  induction bs with
  | nil =>
    intro count acc out _ h
    injection h with h2
    exact ⟨[], by simp [← h2], trivial⟩
  | cons b bs ih =>
    intro count acc out hle h
    simp only [combine_go] at h
    by_cases hfit : b.num_rows ≤ limit - count
    · rw [if_pos hfit] at h
      by_cases hful : count + b.num_rows = limit
      · rw [if_pos hful] at h
        injection h with h2
        refine ⟨[b], by simp [← h2], ?_⟩
        show b.num_rows ≤ limit - count ∧ _
        refine ⟨hfit, ?_⟩
        rw [if_pos hful]
      · rw [if_neg hful] at h
        obtain ⟨tail, htail, hchain⟩ :=
          ih (count + b.num_rows) (acc ++ [b]) out (by omega) h
        refine ⟨b :: tail, by simpa using htail, ?_⟩
        show b.num_rows ≤ limit - count ∧ _
        refine ⟨hfit, ?_⟩
        rw [if_neg hful]
        exact hchain
    · rw [if_neg hfit] at h
      cases htr : truncate_batch b (limit - count) with
      | error e =>
        rw [htr] at h
        cases h
      | ok b2 =>
        rw [htr] at h
        dsimp only at h
        have hr2 := truncate_batch_num_rows b b2 _ htr
        have hful : count + b2.num_rows = limit := by omega
        rw [if_pos hful] at h
        injection h with h2
        refine ⟨[b2], by simp [← h2], ?_⟩
        show b2.num_rows ≤ limit - count ∧ _
        refine ⟨by omega, ?_⟩
        rw [if_pos hful]

/-- Replaying a good chain through the collecting loop keeps every batch
whole and returns the chain unchanged. -/
theorem collect_go_of_goodChain (limit : Nat) (out : List (RecordBatch α)) :
    ∀ (count : Nat) (acc : List (RecordBatch α)),
      GoodChain limit count out →
      collect_go (out.map Pull.batch) limit count acc = .ok (acc ++ out) := by
  induction out with
  | nil => intro count acc _; simp [collect_go]
  | cons b bs ih =>
    intro count acc hchain
    obtain ⟨hfit, hrest⟩ := hchain
    simp only [List.map_cons, collect_go]
    rw [if_pos hfit]
    by_cases hful : count + b.num_rows = limit
    · rw [if_pos hful]
      rw [if_pos hful] at hrest
      rw [hrest]
    · rw [if_neg hful]
      rw [if_neg hful] at hrest
      rw [ih (count + b.num_rows) (acc ++ [b]) hrest]
      simp

/-! ### Helper lemmas: idempotence chain and global error propagation -/

theorem mergeExecute_single (s1 s2 : Schema) (stream : List (Pull α)) (L : Nat) :
    mergeExecute (⟨⟨s1, [stream]⟩, s2, L⟩ : LocalLimitExec α)
      = match collect_with_limit stream L with
        | .error e => .error e
        | .ok res => .ok (res ++ []) := by
  unfold mergeExecute
  show ((List.range ([stream] : List (List (Pull α))).length).mapM
      (fun i => collect_with_limit
        (([stream] : List (List (Pull α))).getD i []) L)
      >>= fun parts => Except.ok parts.flatten) = _
  rw [range_mapM_getD (fun st => collect_with_limit st L), List.mapM_cons,
    List.mapM_nil]
  cases collect_with_limit stream L with
  | error e => rfl
  | ok res => rfl

theorem rewrap_execute (g : GlobalLimitExec α) (out : List (RecordBatch α))
    (hchain : GoodChain g.limit 0 out) :
    (rewrap g out).execute 0 = .ok g.schema out := by
  have hcol : collect_with_limit (out.map Pull.batch) g.limit = .ok out := by
    unfold collect_with_limit
    simpa using collect_go_of_goodChain g.limit out 0 [] hchain
  have hmerge : mergeExecute
      (⟨⟨g.schema, [out.map Pull.batch]⟩, g.schema, g.limit⟩ : LocalLimitExec α)
        = .ok out := by
    rw [mergeExecute_single, hcol]
    simp
  rw [execute_zero_eq]
  show (match mergeExecute
      (⟨⟨g.schema, [out.map Pull.batch]⟩, g.schema, g.limit⟩ : LocalLimitExec α) with
    | Except.error e => ExecOutcome.error e
    | Except.ok batches =>
      match combine_go batches g.limit 0 [] with
      | Except.error e => ExecOutcome.error e
      | Except.ok combined_results => ExecOutcome.ok g.schema combined_results) = _
  rw [hmerge]
  dsimp only
  rw [combine_go_eq_collect_go, collect_go_of_goodChain g.limit out 0 [] hchain]
  simp

theorem execute_ok_goodChain (g : GlobalLimitExec α) (out : List (RecordBatch α))
    (h : g.execute 0 = .ok g.schema out) : GoodChain g.limit 0 out := by
  rw [execute_zero_eq] at h
  cases hm : mergeExecute ⟨g.input, g.schema, g.limit⟩ with
  | error e =>
    rw [hm] at h
    cases h
  | ok batches =>
    rw [hm] at h
    dsimp only at h
    cases hc : combine_go batches g.limit 0 [] with
    | error e =>
      rw [hc] at h
      cases h
    | ok res =>
      rw [hc] at h
      dsimp only at h
      injection h with h1 h2
      obtain ⟨tail, htail, hchain⟩ :=
        combine_go_goodChain g.limit batches 0 [] res (Nat.zero_le _) hc
      have hres : res = tail := by simpa using htail
      rw [← h2, hres]
      exact hchain

theorem global_execute_error (s : Schema) (stream : List (Pull α)) (L c : Nat)
    (e : Err) (hstream : collect_with_limit stream L = .error e) :
    (GlobalLimitExec.new s ⟨s, [stream]⟩ L c).execute 0 = .error e := by
  have hmerge : mergeExecute (⟨⟨s, [stream]⟩, s, L⟩ : LocalLimitExec α)
      = .error e := by
    rw [mergeExecute_single, hstream]
  rw [execute_zero_eq]
  show (match mergeExecute (⟨⟨s, [stream]⟩, s, L⟩ : LocalLimitExec α) with
    | Except.error e => ExecOutcome.error e
    | Except.ok batches =>
      match combine_go batches L 0 [] with
      | Except.error e => ExecOutcome.error e
      | Except.ok combined_results => ExecOutcome.ok s combined_results) = _
  rw [hmerge]

/-! ### Claim theorems -/

/-- C1: executing the global limiter's partition 0 over an error-free,
well-formed input with limit `L` yields batches whose total row count equals
`min L (total rows available from the input across all partitions)`; the
output carries the operator's schema, so `L = 0` gives a zero-row but
schema-correct result. -/
theorem global_limit_row_count (s : Schema) (parts : List (List (RecordBatch α)))
    (L c : Nat) (hwf : ∀ p ∈ parts, ∀ b ∈ p, b.WF) :
    ∃ out,
      (GlobalLimitExec.new s ⟨s, parts.map (fun p => p.map Pull.batch)⟩ L c).execute 0
          = .ok s out ∧
        totalRows out
          = min L (InputPlan.total_rows
              ⟨s, parts.map (fun p => p.map Pull.batch)⟩) := by
  obtain ⟨out, hexe, htot, _⟩ := global_execute_parts s parts L c hwf
  refine ⟨out, hexe, ?_⟩
  rw [total_rows_parts]
  exact htot

/-- C1 witness: four available rows over two partitions, limit 4. -/
theorem global_limit_row_count_witness :
    ∃ out,
      (GlobalLimitExec.new exampleSchema
          ⟨exampleSchema, exampleParts.map (fun p => p.map Pull.batch)⟩ 4 2).execute 0
          = .ok exampleSchema out ∧
        totalRows out
          = min 4 (InputPlan.total_rows
              ⟨exampleSchema, exampleParts.map (fun p => p.map Pull.batch)⟩) :=
  global_limit_row_count exampleSchema exampleParts 4 2 (by decide)

/-- C2: truncating a (well-formed) batch to `n` rows succeeds for every `n` —
also when `n` exceeds the row count — and returns a batch with exactly
`min n rows` rows, the identical schema and column count, and every retained
value equal to the original value at the same row and column position. -/
theorem truncate_batch_spec (b : RecordBatch α) (n : Nat) (d : α) (hwf : b.WF) :
    ∃ b2, truncate_batch b n = .ok b2 ∧
      b2.num_rows = min n b.num_rows ∧
      b2.schema = b.schema ∧
      b2.num_columns = b.num_columns ∧
      ∀ j i, j < b.num_columns → i < min n b.num_rows →
        (b2.columns.getD j []).getD i d = (b.columns.getD j []).getD i d := by
  refine ⟨⟨b.schema, b.columns.map (fun c => c.take n)⟩,
    truncate_batch_of_wf b n hwf, truncated_num_rows b n, rfl,
    by simp [RecordBatch.num_columns], ?_⟩
  intro j i hj hi
  have hj2 : j < b.columns.length := hj
  have hcol : (⟨b.schema, b.columns.map (fun c => c.take n)⟩ :
      RecordBatch α).columns.getD j [] = (b.columns.getD j []).take n := by
    show (b.columns.map (fun c => c.take n)).getD j [] = _
    rw [List.getD_eq_getElem _ ([] : List α) (by simpa using hj2),
      List.getElem_map, List.getD_eq_getElem b.columns ([] : List α) hj2]
  rw [hcol]
  apply getD_take_eq
  · omega
  · rw [List.getD_eq_getElem b.columns ([] : List α) hj2]
    have hmem : b.columns[j] ∈ b.columns := List.getElem_mem hj2
    have := hwf.2 (b.columns[j]) hmem
    omega

/-- C2 witness: a 3-row, two-column batch truncated to 2 rows. -/
theorem truncate_batch_spec_witness :
    ∃ b2, truncate_batch exampleBatch 2 = .ok b2 ∧
      b2.num_rows = min 2 exampleBatch.num_rows ∧
      b2.schema = exampleBatch.schema ∧
      b2.num_columns = exampleBatch.num_columns ∧
      ∀ j i, j < exampleBatch.num_columns → i < min 2 exampleBatch.num_rows →
        (b2.columns.getD j []).getD i 0 = (exampleBatch.columns.getD j []).getD i 0 :=
  truncate_batch_spec exampleBatch 2 0 (by decide)

/-- C3: bounded collection over a pure, well-formed stream returns (without
error, also when the stream is shorter than the cap) a batch list whose
concatenated rows are exactly the first `min cap (total rows)` rows of the
stream, in the stream's order. -/
theorem collect_with_limit_rows (d : α) (bs : List (RecordBatch α)) (cap : Nat)
    (hwf : ∀ b ∈ bs, b.WF) :
    ∃ res, collect_with_limit (bs.map Pull.batch) cap = .ok res ∧
      batchesRows res d = (batchesRows bs d).take cap := by
  obtain ⟨res, heq, hrows⟩ := collect_go_rows cap d bs 0 [] hwf (Nat.zero_le _)
  refine ⟨res, ?_, ?_⟩
  · unfold collect_with_limit
    simpa using heq
  · simpa using hrows

/-- C3 witness: two batches totalling 5 rows, cap 4. -/
theorem collect_with_limit_rows_witness :
    ∃ res, collect_with_limit ([exampleBatch, exampleBatch2].map Pull.batch) 4
        = .ok res ∧
      batchesRows res 0 = (batchesRows [exampleBatch, exampleBatch2] 0).take 4 :=
  collect_with_limit_rows 0 [exampleBatch, exampleBatch2] 4 (by decide)

/-- C4 (counterexample): with cap = 0 and a nonempty stream the loop performs
one `next_batch` call although zero calls suffice to accumulate zero rows —
the cap check runs only after a pulled batch is processed. -/
theorem collect_pulls_counterexample :
    ¬ (collect_pulls [Pull.batch exampleTinyBatch] 0 0
        ≤ pulls_needed [Pull.batch exampleTinyBatch] 0) := by decide

/-- C4 (amended): for every positive cap, bounded collection never pulls the
iterator again once the accumulated row count equals the cap — its number of
`next_batch` calls never exceeds the number needed to accumulate `cap` rows;
for cap = 0 it performs exactly one pull whenever the stream is nonempty
(the cap check happens only after processing a pulled batch), and stops
immediately after it. -/
theorem collect_pulls_bounded (stream : List (Pull α)) (cap : Nat) :
    (0 < cap → collect_pulls stream cap 0 ≤ pulls_needed stream cap) ∧
      collect_pulls stream 0 0 = min 1 stream.length := by
  constructor
  · intro h
    simpa using collect_pulls_le cap stream 0 h
  · exact collect_pulls_zero_cap stream

/-- C4 witness: a single 3-row batch with cap 3 and with cap 0. -/
theorem collect_pulls_bounded_witness :
    collect_pulls exampleStream 3 0 ≤ pulls_needed exampleStream 3 ∧
      collect_pulls exampleStream 0 0 = min 1 exampleStream.length :=
  ⟨(collect_pulls_bounded exampleStream 3).1 (by decide),
   (collect_pulls_bounded exampleStream 3).2⟩

/-- C5 (counterexample): a global limiter constructed with a schema different
from its input operator's schema reports that constructed schema, not the
input's — `schema()` clones the stored field rather than delegating to the
input. -/
theorem global_limit_schema_counterexample :
    mismatchGlobal.schemaImpl ≠ mismatchGlobal.input.schema := by decide

/-- C5 (amended): `schema()` of the global limiter returns the schema stored
at construction; whenever the operator is constructed with its input's schema
(as the engine does), `schema()` returns the input's schema unchanged. -/
theorem global_limit_schema_amended (s : Schema) (inp : InputPlan α) (L c : Nat) :
    (GlobalLimitExec.new s inp L c).schemaImpl = s ∧
      (s = inp.schema → (GlobalLimitExec.new s inp L c).schemaImpl = inp.schema) :=
  ⟨rfl, fun h => h⟩

/-- C5 witness: constructed with the input's schema, `schema()` returns it. -/
theorem global_limit_schema_amended_witness :
    (GlobalLimitExec.new exampleInput.schema exampleInput 4 2).schemaImpl
      = exampleInput.schema :=
  (global_limit_schema_amended exampleInput.schema exampleInput 4 2).2 rfl

/-- C6: every global limiter instance reports exactly one output partition,
whatever the input's partition count and independent of any data. -/
theorem global_limit_single_partition (g : GlobalLimitExec α) :
    g.output_partitioning.partition_count = 1 := rfl

/-- C7: executing the global limiter at any partition index other than 0
panics (a fatal contract violation, not a recoverable error), never returns
data, and at partition 0 the panic branch is unreachable. -/
theorem global_limit_execute_nonzero (g : GlobalLimitExec α) (p : Nat)
    (h : p ≠ 0) :
    g.execute p = .panic ∧ (g.execute p).isOk = false ∧
      g.execute 0 ≠ .panic := by
  have h1 : g.execute p = .panic := by
    unfold GlobalLimitExec.execute
    rw [if_pos (Ne.symm h)]
  refine ⟨h1, by rw [h1]; rfl, ?_⟩
  rw [execute_zero_eq]
  cases mergeExecute ⟨g.input, g.schema, g.limit⟩ with
  | error e => simp
  | ok batches =>
    dsimp only
    cases combine_go batches g.limit 0 [] with
    | error e => simp
    | ok res => simp

/-- C7 witness: partition index 1 on a concrete two-partition input. -/
theorem global_limit_execute_nonzero_witness :
    exampleGlobal.execute 1 = .panic ∧
      (exampleGlobal.execute 1).isOk = false ∧
      exampleGlobal.execute 0 ≠ .panic :=
  global_limit_execute_nonzero exampleGlobal 1 (by decide)

/-- C8: an error raised while pulling a batch — as long as the cap has not
been reached before it — aborts the bounded collection and the whole global
limiting operation, propagating the error; no batch list is returned
alongside it. -/
theorem limit_error_propagation (bs : List (RecordBatch α)) (e : Err)
    (rest : List (Pull α)) (cap : Nat)
    (hbelow : ∀ k, 1 ≤ k → k ≤ bs.length → totalRows (bs.take k) < cap) :
    collect_with_limit (bs.map Pull.batch ++ Pull.error e :: rest) cap
        = .error e ∧
      ∀ (s : Schema) (c : Nat),
        (GlobalLimitExec.new s
            ⟨s, [bs.map Pull.batch ++ Pull.error e :: rest]⟩ cap c).execute 0
          = .error e := by
  have hcol : collect_with_limit (bs.map Pull.batch ++ Pull.error e :: rest) cap
      = .error e := by
    unfold collect_with_limit
    apply collect_go_error
    intro k h1 h2
    simpa using hbelow k h1 h2
  exact ⟨hcol, fun s c => global_execute_error s _ cap c e hcol⟩

/-- C8 witness: a 3-row batch, then an upstream error, cap 5. -/
theorem limit_error_propagation_witness :
    collect_with_limit ([exampleBatch].map Pull.batch
          ++ Pull.error exampleErr :: []) 5 = .error exampleErr ∧
      (GlobalLimitExec.new exampleSchema
          ⟨exampleSchema, [[exampleBatch].map Pull.batch
            ++ Pull.error exampleErr :: []]⟩ 5 2).execute 0
        = .error exampleErr := by
  have hb : ∀ k, 1 ≤ k → k ≤ ([exampleBatch] : List (RecordBatch Nat)).length →
      totalRows (([exampleBatch] : List (RecordBatch Nat)).take k) < 5 := by
    intro k h1 h2
    simp only [List.length_cons, List.length_nil] at h2
    have hk : k = 1 := by omega
    subst hk
    decide
  exact ⟨(limit_error_propagation [exampleBatch] exampleErr [] 5 hb).1,
    (limit_error_propagation [exampleBatch] exampleErr [] 5 hb).2 exampleSchema 2⟩

/-- C9: applying the global limiter with limit L and then applying a global
limiter with the same schema, limit and concurrency to its output reproduces
the identical result — same batches, same rows, same order. -/
theorem global_limit_idempotent (g : GlobalLimitExec α)
    (out : List (RecordBatch α)) (h : g.execute 0 = .ok g.schema out) :
    (rewrap g out).execute 0 = .ok g.schema out :=
  rewrap_execute g out (execute_ok_goodChain g out h)

/-- C9 witness: the concrete limiter's output re-limited is unchanged. -/
theorem global_limit_idempotent_witness :
    (rewrap exampleGlobal [exampleBatch, exampleTruncated]).execute 0
      = .ok exampleGlobal.schema [exampleBatch, exampleTruncated] :=
  global_limit_idempotent exampleGlobal [exampleBatch, exampleTruncated]
    (by decide)

/-- C10: in both limiting loops (post-merge combining and bounded collection)
the running row count never exceeds the limit at any point where
`capacity = limit - count` is computed, so the `usize` subtraction never
underflows. -/
theorem limit_loop_count_invariant (stream : List (Pull α))
    (bs : List (RecordBatch α)) (L : Nat) :
    (∀ x ∈ collect_counts stream L 0, x ≤ L) ∧
      ∀ x ∈ combine_counts bs L 0, x ≤ L := by
  refine ⟨collect_counts_le L stream 0 (Nat.zero_le _), ?_⟩
  intro x hx
  rw [combine_counts_eq] at hx
  exact collect_counts_le L (bs.map Pull.batch) 0 (Nat.zero_le _) x hx

/-- C10 witness: count 0 is recorded by both loops and is within limit 5. -/
theorem limit_loop_count_invariant_witness :
    (0 ∈ collect_counts exampleStream 5 0 ∧ (0 : Nat) ≤ 5) ∧
      (0 ∈ combine_counts [exampleBatch] 5 0 ∧ (0 : Nat) ≤ 5) :=
  ⟨⟨by decide,
    (limit_loop_count_invariant exampleStream [exampleBatch] 5).1 0 (by decide)⟩,
   ⟨by decide,
    (limit_loop_count_invariant exampleStream [exampleBatch] 5).2 0 (by decide)⟩⟩
